import Mathlib

/-!
Verification of the cache-aware indexing and retrieval pipeline of the
semantic-search-engine repository.

The Python modules are shallowly embedded as Lean definitions:

* `src/cache_manager.py` : `CacheEntry`, `Cache`, `cacheGet`, `cacheSet`,
  `bulk_get_changed`, `load_cache`.
* `src/search_engine.py`  : `build_index` (cache check, batch embedding,
  id-map construction) and `search` (FAISS query + id-map resolution).
* `src/ranker.py`         : `rerank` (stable descending sort + truncation).
* `src/explainer.py`      : `simple_tokenize`, `extract_keywords`,
  `keyword_overlap`, `doc_length_norm`.
* `src/embedder.py`       : `normalizeMatrix` (the Python method named
  with a leading underscore) and `embed_query` post-processing.

External collaborators are parameters: the filesystem is a function
path -> contents, the sentence-transformer model is a function
text -> vector, the JSON parser is a function returning an `Option`.
Embedding vectors are rationals where only equality of vectors matters
(cache and index bookkeeping) and reals where norms matter (embedder).
The FAISS flat inner-product index is modelled by its documented
behaviour: exact top-k by inner product, sorted by decreasing score,
padded with label -1 when fewer than k vectors are stored.
-/

/-- One entry of `data/metadata.json`: doc_id, path, hash, length. -/
structure DocMeta where
  doc_id : String
  path : String
  hash : String
  length : Nat
deriving DecidableEq, Repr

/-- One entry of the embedding cache (`cache/embeddings.json`). -/
structure CacheEntry where
  doc_id : String
  embedding : List ℚ
  hash : String
  updated_at : Nat
deriving DecidableEq, Repr

/-- The cache dictionary: an insertion-ordered map doc_id -> entry,
as a Python `dict` is. -/
abbrev Cache := List (String × CacheEntry)

/-- `CacheManager.get`: return the entry for `doc_id`, or none. -/
def cacheGet (c : Cache) (id : String) : Option CacheEntry :=
  (c.find? (fun p => p.1 == id)).map (·.2)

/-- `CacheManager.set`: upsert, keeping dict insertion order. -/
def cacheSet (c : Cache) (id : String) (e : CacheEntry) : Cache :=
  if (c.find? (fun p => p.1 == id)).isSome then
    c.map (fun p => if p.1 == id then (id, e) else p)
  else
    c ++ [(id, e)]

/-- `CacheManager.bulk_get_changed` (the reconcile operation): for each
meta, the cached entry iff present and its stored hash equals the meta's
current hash, otherwise none. -/
def bulk_get_changed (c : Cache) (metas : List DocMeta) :
    List (String × Option CacheEntry) :=
  metas.map (fun m =>
    (m.doc_id,
      match cacheGet c m.doc_id with
      | some e => if e.hash = m.hash then some e else none
      | none => none))

/-- `CacheManager._load`: the persisted file is either absent (`none`) or
holds text `s`; `parse` models `json.load`, returning `none` exactly when
it would raiseJSONDecodeError. A missing or unparseable file yields the
empty cache; the function is total, so loading never raises. -/
def load_cache (file : Option String) (parse : String → Option Cache) : Cache :=
  match file with
  | none => []
  | some s =>
    match parse s with
    | some d => d
    | none => []

/-- Result of `SearchEngine.build_index`: the embedding matrix handed to
FAISS (row i = position i), the cache after the build, the id-map
(position -> doc_id, in metadata order), and the number of texts sent to
the embedding provider (`len(to_compute)`). -/
structure BuildResult where
  embeddings : List (List ℚ)
  cache : Cache
  id_map : List (Nat × String)
  to_compute_len : Nat
deriving DecidableEq, Repr

/-- `SearchEngine.build_index`. `fs` is the filesystem (path -> text),
`encode` the embedding provider (`Embedder.embed_texts` maps it over the
batch), `now` the timestamp used by `CacheManager.set`. Phase 1 reads the
original cache for every meta (`cached = self.cache.get(meta["doc_id"])`,
taken whenever present, with no hash comparison, exactly as in the code);
phase 2 embeds the misses and writes them back. -/
def build_index (fs : String → String) (encode : String → List ℚ)
    (now : Nat) (metas : List DocMeta) (cache : Cache) : BuildResult :=
  let cachedList := metas.map (fun m => cacheGet cache m.doc_id)
  let to_compute :=
    ((metas.zip cachedList).filter (fun p => p.2.isNone)).map (fun p => fs p.1.path)
  let cacheAfter :=
    (metas.zip cachedList).foldl
      (fun c p =>
        match p.2 with
        | some _ => c
        | none => cacheSet c p.1.doc_id
            ⟨p.1.doc_id, encode (fs p.1.path), p.1.hash, now⟩)
      cache
  let embeddings :=
    (metas.zip cachedList).map (fun p =>
      match p.2 with
      | some e => e.embedding
      | none => encode (fs p.1.path))
  ⟨embeddings, cacheAfter, (metas.map (·.doc_id)).enum, to_compute.length⟩

/-- The metas whose texts are sent to the provider during a build:
exactly those with no cache entry at all (hash is not consulted). -/
def missedMetas (metas : List DocMeta) (cache : Cache) : List DocMeta :=
  metas.filter (fun m => (cacheGet cache m.doc_id).isNone)

theorem cacheGet_cacheSet_self (c : Cache) (id : String) (e : CacheEntry) :
    cacheGet (cacheSet c id e) id = some e := by
  unfold cacheSet
  by_cases h : (c.find? (fun p => p.1 == id)).isSome
  · rw [if_pos h]
    unfold cacheGet
    rw [List.find?_map]
    have hpred : (fun p : String × CacheEntry =>
        (if p.1 == id then (id, e) else p).1 == id)
        = (fun p : String × CacheEntry => p.1 == id) := by
      funext p
      by_cases hp : p.1 == id <;> simp [hp]
    rw [Function.comp_def]
    simp only [hpred]
    obtain ⟨q, hq⟩ := Option.isSome_iff_exists.mp h
    have hq1 : q.1 = id := by simpa using List.find?_some hq
    rw [hq]
    simp [hq1]
  · rw [if_neg h]
    unfold cacheGet
    rw [List.find?_append]
    have hnone : c.find? (fun p => p.1 == id) = none :=
      Option.not_isSome_iff_eq_none.mp h
    simp [hnone]

theorem cacheGet_cacheSet_ne (c : Cache) (id id' : String) (e : CacheEntry)
    (hne : id' ≠ id) : cacheGet (cacheSet c id e) id' = cacheGet c id' := by
  unfold cacheSet
  by_cases h : (c.find? (fun p => p.1 == id)).isSome
  · rw [if_pos h]
    unfold cacheGet
    rw [List.find?_map]
    have hpred : (fun p : String × CacheEntry =>
        (if p.1 == id then (id, e) else p).1 == id')
        = (fun p : String × CacheEntry => p.1 == id') := by
      funext p
      by_cases hp : p.1 == id
      · have hp1 : p.1 = id := by simpa using hp
        simp [hp, hp1]
      · simp [hp]
    rw [Function.comp_def]
    simp only [hpred]
    cases hfind : c.find? (fun p => p.1 == id') with
    | none => simp
    | some q =>
      have hq1 : q.1 = id' := by simpa using List.find?_some hfind
      have hqid : ¬ q.1 = id := by rw [hq1]; exact hne
      simp [hqid]
  · rw [if_neg h]
    unfold cacheGet
    rw [List.find?_append]
    have hsingle : List.find? (fun p => p.1 == id') [(id, e)] = none := by
      simp
      exact fun hcontr => absurd hcontr.symm hne
    cases hfind : c.find? (fun p => p.1 == id') <;> simp [hsingle, hfind]

theorem isSome_cacheGet_cacheSet (c : Cache) (id id' : String) (e : CacheEntry)
    (h : (cacheGet c id').isSome) : (cacheGet (cacheSet c id e) id').isSome := by
  by_cases hid : id' = id
  · subst hid
    rw [cacheGet_cacheSet_self]
    rfl
  · rw [cacheGet_cacheSet_ne c id id' e hid]
    exact h

/-- The cache-write phase of `build_index`, as a standalone fold. -/
def buildCacheStep (fs : String → String) (encode : String → List ℚ)
    (now : Nat) (c : Cache) (p : DocMeta × Option CacheEntry) : Cache :=
  match p.2 with
  | some _ => c
  | none => cacheSet c p.1.doc_id ⟨p.1.doc_id, encode (fs p.1.path), p.1.hash, now⟩

theorem build_index_cache_eq_fold (fs : String → String)
    (encode : String → List ℚ) (now : Nat) (metas : List DocMeta)
    (cache : Cache) :
    (build_index fs encode now metas cache).cache
      = (metas.zip (metas.map (fun m => cacheGet cache m.doc_id))).foldl
          (buildCacheStep fs encode now) cache := by
  unfold build_index buildCacheStep
  rfl

theorem foldl_buildCacheStep_isSome (fs : String → String)
    (encode : String → List ℚ) (now : Nat)
    (l : List (DocMeta × Option CacheEntry)) (c : Cache) (j : String)
    (h : (cacheGet c j).isSome) :
    (cacheGet (l.foldl (buildCacheStep fs encode now) c) j).isSome := by
  induction l generalizing c with
  | nil => exact h
  | cons p t ih =>
    rw [List.foldl_cons]
    apply ih
    unfold buildCacheStep
    cases p.2 with
    | some _ => exact h
    | none => exact isSome_cacheGet_cacheSet _ _ _ _ h

theorem foldl_buildCacheStep_mem_isSome (fs : String → String)
    (encode : String → List ℚ) (now : Nat)
    (l : List (DocMeta × Option CacheEntry)) (c : Cache)
    (p : DocMeta × Option CacheEntry) (hp : p ∈ l) (hnone : p.2 = none) :
    (cacheGet (l.foldl (buildCacheStep fs encode now) c) p.1.doc_id).isSome := by
  induction l generalizing c with
  | nil => cases hp
  | cons q t ih =>
    rw [List.foldl_cons]
    rcases List.mem_cons.mp hp with hq | ht
    · subst hq
      apply foldl_buildCacheStep_isSome
      unfold buildCacheStep
      rw [hnone]
      rw [cacheGet_cacheSet_self]
      rfl
    · exact ih _ ht

theorem mem_zip_map_self {α β : Type} (g : α → β) (l : List α) (a : α)
    (ha : a ∈ l) : (a, g a) ∈ l.zip (l.map g) := by
  induction l with
  | nil => cases ha
  | cons x t ih =>
    rcases List.mem_cons.mp ha with hx | ht
    · subst hx
      simp
    · simp only [List.map_cons, List.zip_cons_cons, List.mem_cons]
      exact Or.inr (ih ht)

theorem build_index_cache_covers (fs : String → String)
    (encode : String → List ℚ) (now : Nat) (metas : List DocMeta)
    (cache : Cache) (m : DocMeta) (hm : m ∈ metas) :
    (cacheGet ((build_index fs encode now metas cache).cache) m.doc_id).isSome := by
  rw [build_index_cache_eq_fold]
  cases h : cacheGet cache m.doc_id with
  | some e =>
    apply foldl_buildCacheStep_isSome
    rw [h]; rfl
  | none =>
    exact foldl_buildCacheStep_mem_isSome fs encode now _ cache
      (m, cacheGet cache m.doc_id)
      (mem_zip_map_self _ metas m hm) (by rw [h])

theorem build_index_to_compute_eq (fs : String → String)
    (encode : String → List ℚ) (now : Nat) (metas : List DocMeta)
    (cache : Cache) :
    (build_index fs encode now metas cache).to_compute_len
      = (missedMetas metas cache).length := by
  unfold build_index missedMetas
  simp only [List.length_map]
  induction metas with
  | nil => rfl
  | cons m ms ih =>
    simp only [List.map_cons, List.zip_cons_cons, List.filter_cons]
    cases h : cacheGet cache m.doc_id <;>
      simp_all [List.length_map, Option.isNone]

/-- C4: cache-hit correctness. For every document whose content hash equals
the hash stored in its cache entry, `bulk_get_changed` (reconcile) returns
that stored entry unmodified and the build sends no text of that document
to the embedding provider; and a rebuild over the cache produced by a
previous build of the same corpus computes zero new embeddings. -/
theorem cache_hit_correct :
    (∀ (c : Cache) (metas : List DocMeta) (m : DocMeta) (e : CacheEntry),
        m ∈ metas → cacheGet c m.doc_id = some e → e.hash = m.hash →
        (m.doc_id, some e) ∈ bulk_get_changed c metas ∧
          m ∉ missedMetas metas c) ∧
    (∀ (fs : String → String) (encode : String → List ℚ) (now now' : Nat)
        (metas : List DocMeta) (cache : Cache),
        (build_index fs encode now' metas
          ((build_index fs encode now metas cache).cache)).to_compute_len = 0) := by
  constructor
  · intro c metas m e hm hget hhash
    constructor
    · unfold bulk_get_changed
      apply List.mem_map.mpr
      exact ⟨m, hm, by rw [hget]; simp [hhash]⟩
    · unfold missedMetas
      intro hmem
      have hkeep := List.of_mem_filter hmem
      rw [hget] at hkeep
      simp at hkeep
  · intro fs encode now now' metas cache
    rw [build_index_to_compute_eq]
    unfold missedMetas
    rw [List.length_eq_zero]
    apply List.filter_eq_nil_iff.mpr
    intro m hm
    have hsome := build_index_cache_covers fs encode now metas cache m hm
    intro hnone
    rw [Option.isNone_iff_eq_none] at hnone
    rw [hnone] at hsome
    exact absurd hsome (by simp)

/-- Witness for C4 at a concrete one-document corpus whose hash matches
the cached hash. -/
theorem cache_hit_correct_witness :
    ("d1", some (⟨"d1", [(2 : ℚ)], "h1", 5⟩ : CacheEntry)) ∈
        bulk_get_changed [("d1", ⟨"d1", [(2 : ℚ)], "h1", 5⟩)]
          [⟨"d1", "p1", "h1", 4⟩] ∧
      (⟨"d1", "p1", "h1", 4⟩ : DocMeta) ∉
        missedMetas [⟨"d1", "p1", "h1", 4⟩]
          [("d1", ⟨"d1", [(2 : ℚ)], "h1", 5⟩)] :=
  cache_hit_correct.1 [("d1", ⟨"d1", [(2 : ℚ)], "h1", 5⟩)]
    [⟨"d1", "p1", "h1", 4⟩] ⟨"d1", "p1", "h1", 4⟩ ⟨"d1", [(2 : ℚ)], "h1", 5⟩
    (by simp) (by decide) rfl

/-- C1: cache-miss behaviour at a concrete changed document. The reconcile
operation `bulk_get_changed` correctly reports the document as needing
recomputation (its cached hash h1 differs from the current hash h2), but
`build_index` never consults hashes: it reuses the stale cached vector
[5] instead of the provider's fresh [7], leaves the cache entry at the
old hash and old embedding, and sends zero texts to the provider. This
exhibits the code bug that refutes the claim. -/
theorem cache_miss_stale_reuse :
    bulk_get_changed [("d1", ⟨"d1", [(5 : ℚ)], "h1", 0⟩)]
        [⟨"d1", "p1", "h2", 3⟩] = [("d1", none)] ∧
      (build_index (fun _ => "text") (fun _ => [(7 : ℚ)]) 9
          [⟨"d1", "p1", "h2", 3⟩]
          [("d1", ⟨"d1", [(5 : ℚ)], "h1", 0⟩)]).embeddings = [[(5 : ℚ)]] ∧
      cacheGet (build_index (fun _ => "text") (fun _ => [(7 : ℚ)]) 9
          [⟨"d1", "p1", "h2", 3⟩]
          [("d1", ⟨"d1", [(5 : ℚ)], "h1", 0⟩)]).cache "d1"
        = some ⟨"d1", [(5 : ℚ)], "h1", 0⟩ ∧
      (build_index (fun _ => "text") (fun _ => [(7 : ℚ)]) 9
          [⟨"d1", "p1", "h2", 3⟩]
          [("d1", ⟨"d1", [(5 : ℚ)], "h1", 0⟩)]).to_compute_len = 0 := by
  decide

/-- C8: cache-load robustness. Loading is a total function; a missing
file loads as the empty cache, an unparseable file loads as the empty
cache, and reconcile over the empty cache signals recompute for every
document. -/
theorem cache_load_robust :
    (∀ parse : String → Option Cache, load_cache none parse = []) ∧
    (∀ (parse : String → Option Cache) (s : String),
        parse s = none → load_cache (some s) parse = []) ∧
    (∀ metas : List DocMeta,
        bulk_get_changed [] metas = metas.map (fun m => (m.doc_id, none))) := by
  refine ⟨fun _ => rfl, fun parse s h => ?_, fun metas => ?_⟩
  · simp [load_cache, h]
  · unfold bulk_get_changed
    rfl

/-- Witness for C8 at a concrete corrupt file and one-document corpus. -/
theorem cache_load_robust_witness :
    load_cache (some "garbage") (fun _ => none) = [] ∧
      bulk_get_changed [] [⟨"d1", "p1", "h1", 4⟩]
        = [("d1", (none : Option CacheEntry))] :=
  ⟨cache_load_robust.2.1 (fun _ => none) "garbage" rfl,
    cache_load_robust.2.2 [⟨"d1", "p1", "h1", 4⟩]⟩

theorem zip_map_self {α β : Type} (g : α → β) (l : List α) :
    l.zip (l.map g) = l.map (fun a => (a, g a)) := by
  induction l with
  | nil => rfl
  | cons a t ih => simp [List.zip_cons_cons, ih]

/-- C5: index/id-map alignment. After every build over a corpus of N
metadata entries, the embedding matrix has N rows and the id-map N
entries; entry i of the id-map is (i, doc_id of the i-th meta), that
doc_id occurs in the corpus metadata, and row i of the matrix is the
embedding selected for that same document (its cached vector when a
cache entry exists, otherwise the provider's embedding of its text) —
positions follow metadata order. -/
theorem index_idmap_alignment :
    ∀ (fs : String → String) (encode : String → List ℚ) (now : Nat)
      (metas : List DocMeta) (cache : Cache),
      (build_index fs encode now metas cache).embeddings.length = metas.length ∧
      (build_index fs encode now metas cache).id_map.length = metas.length ∧
      ∀ (i : Nat) (m : DocMeta), metas[i]? = some m →
        (build_index fs encode now metas cache).id_map[i]? = some (i, m.doc_id) ∧
        m.doc_id ∈ metas.map (·.doc_id) ∧
        (build_index fs encode now metas cache).embeddings[i]?
          = some (match cacheGet cache m.doc_id with
                  | some e => e.embedding
                  | none => encode (fs m.path)) := by
  intro fs encode now metas cache
  have hzip : metas.zip (metas.map fun m => cacheGet cache m.doc_id)
      = metas.map (fun m => (m, cacheGet cache m.doc_id)) := zip_map_self _ _
  refine ⟨?_, ?_, ?_⟩
  · simp [build_index, hzip]
  · simp [build_index, List.enum_length]
  · intro i m hm
    refine ⟨?_, ?_, ?_⟩
    · show ((metas.map (·.doc_id)).enum)[i]? = some (i, m.doc_id)
      rw [List.getElem?_enum, List.getElem?_map, hm]
      rfl
    · exact List.mem_map.mpr ⟨m, List.getElem?_mem hm, rfl⟩
    · show ((metas.zip (metas.map fun m => cacheGet cache m.doc_id)).map _)[i]? = _
      rw [hzip, List.map_map, List.getElem?_map, hm]
      rfl

/-- Witness for C5 at a concrete two-document corpus, one document
cached and one not. -/
theorem index_idmap_alignment_witness :
    (build_index (fun _ => "t") (fun _ => [(7 : ℚ)]) 3
        [⟨"d1", "p1", "h1", 2⟩, ⟨"d2", "p2", "h2", 2⟩]
        [("d2", ⟨"d2", [(4 : ℚ)], "h2", 0⟩)]).embeddings.length = 2 ∧
      (build_index (fun _ => "t") (fun _ => [(7 : ℚ)]) 3
        [⟨"d1", "p1", "h1", 2⟩, ⟨"d2", "p2", "h2", 2⟩]
        [("d2", ⟨"d2", [(4 : ℚ)], "h2", 0⟩)]).id_map[1]? = some (1, "d2") ∧
      (build_index (fun _ => "t") (fun _ => [(7 : ℚ)]) 3
        [⟨"d1", "p1", "h1", 2⟩, ⟨"d2", "p2", "h2", 2⟩]
        [("d2", ⟨"d2", [(4 : ℚ)], "h2", 0⟩)]).embeddings[1]? = some [(4 : ℚ)] := by
  have h := index_idmap_alignment (fun _ => "t") (fun _ => [(7 : ℚ)]) 3
    [⟨"d1", "p1", "h1", 2⟩, ⟨"d2", "p2", "h2", 2⟩]
    [("d2", ⟨"d2", [(4 : ℚ)], "h2", 0⟩)]
  have h1 := h.2.2 1 ⟨"d2", "p2", "h2", 2⟩ (by decide)
  exact ⟨h.1, h1.1, h1.2.2⟩

/-- A raw search result row (`SearchCandidate`): doc_id, score, path. -/
structure SearchCandidate where
  doc_id : String
  score : ℚ
  path : String
deriving DecidableEq, Repr

/-- The comparison realised by
`sorted(results, key=lambda x: x["score"], reverse=True)`:
`a` may come before `b` exactly when `b`'s score is at most `a`'s. -/
def scoreGe (a b : SearchCandidate) : Prop := b.score ≤ a.score

instance : DecidableRel scoreGe :=
  fun a b => decidable_of_iff (b.score ≤ a.score) Iff.rfl

instance : IsTotal SearchCandidate scoreGe :=
  ⟨fun a b => le_total b.score a.score⟩

instance : IsTrans SearchCandidate scoreGe :=
  ⟨fun _ _ _ hab hbc => le_trans hbc hab⟩

/-- `Ranker.rerank`: Python's sort is stable, and with `reverse=True`
equal keys still keep their original relative order, so the sort is the
stable descending sort by score; `List.insertionSort` with `scoreGe` is
exactly that (stability is proved below). The result is truncated to
`top_k`. -/
def rerank (results : List SearchCandidate) (top_k : Nat) :
    List SearchCandidate :=
  (List.insertionSort scoreGe results).take top_k

/-- C6: ranking determinism. `rerank` returns at most `top_k` candidates,
all drawn from the input (a sub-multiset of it), with scores
non-increasing from first to last; being a pure function of
(candidates, top_k), two calls on the same input return the identical
sequence. -/
theorem rerank_deterministic_sorted :
    ∀ (results : List SearchCandidate) (top_k : Nat),
      (rerank results top_k).length ≤ top_k ∧
      (∀ c ∈ rerank results top_k, c ∈ results) ∧
      List.Subperm (rerank results top_k) results ∧
      (rerank results top_k).Pairwise scoreGe ∧
      rerank results top_k = rerank results top_k := by
  intro results top_k
  refine ⟨List.length_take_le _ _, ?_, ?_, ?_, rfl⟩
  · intro c hc
    exact (List.mem_insertionSort scoreGe).mp (List.mem_of_mem_take hc)
  · exact ((List.take_sublist _ _).subperm).trans
      ((List.perm_insertionSort scoreGe results).subperm)
  · exact List.Pairwise.sublist (List.take_sublist _ _)
      (List.sorted_insertionSort scoreGe results)

/-- Witness for C6 at a concrete two-candidate list with top_k = 1. -/
theorem rerank_deterministic_sorted_witness :
    (rerank [⟨"a", (1 : ℚ), "pa"⟩, ⟨"b", (2 : ℚ), "pb"⟩] 1).length ≤ 1 ∧
      (⟨"b", (2 : ℚ), "pb"⟩ : SearchCandidate) ∈
        [(⟨"a", (1 : ℚ), "pa"⟩ : SearchCandidate), ⟨"b", (2 : ℚ), "pb"⟩] ∧
      (rerank [⟨"a", (1 : ℚ), "pa"⟩, ⟨"b", (2 : ℚ), "pb"⟩] 1).Pairwise scoreGe :=
  have h := rerank_deterministic_sorted
    [⟨"a", (1 : ℚ), "pa"⟩, ⟨"b", (2 : ℚ), "pb"⟩] 1
  ⟨h.1, h.2.1 ⟨"b", (2 : ℚ), "pb"⟩ (by decide), h.2.2.2.1⟩

theorem filter_orderedInsert_score_eq (s : ℚ) (a : SearchCandidate)
    (l : List SearchCandidate) (ha : a.score = s) :
    (l.orderedInsert scoreGe a).filter (fun c => decide (c.score = s))
      = a :: l.filter (fun c => decide (c.score = s)) := by
  rw [List.orderedInsert_eq_take_drop, List.filter_append]
  have htake : (l.takeWhile fun b => decide ¬ scoreGe a b).filter
      (fun c => decide (c.score = s)) = [] := by
    apply List.filter_eq_nil_iff.mpr
    intro b hb
    have hpred := List.mem_takeWhile_imp hb
    have hgt : ¬ b.score ≤ a.score := by simpa [scoreGe] using hpred
    simp only [decide_eq_true_eq]
    intro hbs
    exact hgt (by rw [hbs, ha])
  rw [htake]
  have hdrop : ((a :: l.dropWhile fun b => decide ¬ scoreGe a b).filter
      (fun c => decide (c.score = s)))
      = a :: ((l.dropWhile fun b => decide ¬ scoreGe a b).filter
          (fun c => decide (c.score = s))) := by
    simp [List.filter_cons, ha]
  rw [hdrop]
  have hsplit : l.filter (fun c => decide (c.score = s))
      = ((l.takeWhile fun b => decide ¬ scoreGe a b)
          ++ (l.dropWhile fun b => decide ¬ scoreGe a b)).filter
            (fun c => decide (c.score = s)) := by
    rw [List.takeWhile_append_dropWhile]
  rw [hsplit, List.filter_append, htake]
  rfl

theorem filter_orderedInsert_score_ne (s : ℚ) (a : SearchCandidate)
    (l : List SearchCandidate) (ha : a.score ≠ s) :
    (l.orderedInsert scoreGe a).filter (fun c => decide (c.score = s))
      = l.filter (fun c => decide (c.score = s)) := by
  rw [List.orderedInsert_eq_take_drop, List.filter_append]
  have hcons : ((a :: l.dropWhile fun b => decide ¬ scoreGe a b).filter
      (fun c => decide (c.score = s)))
      = ((l.dropWhile fun b => decide ¬ scoreGe a b).filter
          (fun c => decide (c.score = s))) := by
    simp [List.filter_cons, ha]
  rw [hcons, ← List.filter_append, List.takeWhile_append_dropWhile]

theorem insertionSort_score_filter (s : ℚ) (l : List SearchCandidate) :
    (List.insertionSort scoreGe l).filter (fun c => decide (c.score = s))
      = l.filter (fun c => decide (c.score = s)) := by
  induction l with
  | nil => rfl
  | cons a t ih =>
    show ((List.insertionSort scoreGe t).orderedInsert scoreGe a).filter _ = _
    by_cases ha : a.score = s
    · rw [filter_orderedInsert_score_eq s a _ ha, ih]
      simp [List.filter_cons, ha]
    · rw [filter_orderedInsert_score_ne s a _ ha, ih]
      simp [List.filter_cons, ha]

/-- C9: rerank's sort is stable. For every candidate list and every
score value s, the subsequence of equal-score candidates (score = s) in
the sorted output is exactly, and in the same order as, the subsequence
of those candidates in the input — ties are broken by original input
position; and rerank is exactly this stable sort truncated to top_k. -/
theorem rerank_sort_stable :
    ∀ (results : List SearchCandidate) (s : ℚ) (top_k : Nat),
      (List.insertionSort scoreGe results).filter (fun c => decide (c.score = s))
        = results.filter (fun c => decide (c.score = s)) ∧
      rerank results top_k = (List.insertionSort scoreGe results).take top_k :=
  fun results s _ => ⟨insertionSort_score_filter s results, rfl⟩

/-- A word character as matched by the token pattern of
`src/explainer.py` on the (ASCII) corpus text: letter, digit or
underscore. -/
def isWordChar (c : Char) : Bool := c.isAlphanum || c == '_'

/-- One step of maximal-run extraction, folded from the right: the
accumulator carries the word-character run that starts immediately to
the right of the current position, plus the finished tokens further
right. -/
def tokenStep (c : Char) (acc : List Char × List (List Char)) :
    List Char × List (List Char) :=
  if isWordChar c then (c :: acc.1, acc.2)
  else ([], if acc.1 = [] then acc.2 else acc.1 :: acc.2)

/-- All maximal runs of word characters, in order. -/
def wordRuns (cs : List Char) : List (List Char) :=
  let acc := cs.foldr tokenStep ([], [])
  if acc.1 = [] then acc.2 else acc.1 :: acc.2

/-- `simple_tokenize`: lowercase the text and return the maximal runs
of word characters (`findall` of the word-run pattern on the lowercased
text); the empty text gives no tokens. -/
def simple_tokenize (s : String) : List String :=
  (wordRuns (s.data.map Char.toLower)).map (fun cs => String.mk cs)

/-- The fixed stopword set `_STOPWORDS` of `src/explainer.py`. -/
def stopwords : List String :=
  ["the", "is", "in", "and", "of", "a", "an", "to", "for", "on", "with",
   "that", "this", "it", "as", "are", "be", "by", "or", "from", "at",
   "was", "which", "we", "you"]

/-- `extract_keywords` with its default use_stopwords=True: the tokens
that are not stopwords. -/
def extract_keywords (s : String) : List String :=
  (simple_tokenize s).filter (fun t => !(stopwords.contains t))

/-- Lexicographic code-point comparison of character sequences: the
order Python uses to compare strings. -/
def charListLe : List Char → List Char → Bool
  | [], _ => true
  | _ :: _, [] => false
  | a :: as, b :: bs =>
    if a < b then true else if b < a then false else charListLe as bs

/-- Python string comparison (alphabetical order on the lowercased
tokens): lexicographic by code point. -/
def strLe (a b : String) : Prop := charListLe a.data b.data = true

instance : DecidableRel strLe := fun a b =>
  decidable_of_iff (charListLe a.data b.data = true) Iff.rfl

theorem charListLe_total : ∀ as bs : List Char,
    charListLe as bs = true ∨ charListLe bs as = true := by
  intro as
  induction as with
  | nil => intro bs; exact Or.inl rfl
  | cons a as ih =>
    intro bs
    cases bs with
    | nil => exact Or.inr rfl
    | cons b bs =>
      rcases lt_trichotomy a b with h | h | h
      · exact Or.inl (by simp [charListLe, h])
      · subst h
        rcases ih bs with h' | h'
        · exact Or.inl (by simp [charListLe, h'])
        · exact Or.inr (by simp [charListLe, h'])
      · exact Or.inr (by simp [charListLe, h])

theorem charListLe_trans : ∀ as bs cs : List Char,
    charListLe as bs = true → charListLe bs cs = true →
    charListLe as cs = true := by
  intro as
  induction as with
  | nil => intro bs cs _ _; rfl
  | cons a as ih =>
    intro bs cs h1 h2
    cases bs with
    | nil => simp [charListLe] at h1
    | cons b bs =>
      cases cs with
      | nil => simp [charListLe] at h2
      | cons c cs =>
        rcases lt_trichotomy a b with hab | hab | hab
        · rcases lt_trichotomy b c with hbc | hbc | hbc
          · exact (by simp [charListLe, hab.trans hbc])
          · subst hbc
            exact (by simp [charListLe, hab])
          · simp [charListLe, hbc, asymm hbc] at h2
        · subst hab
          rcases lt_trichotomy a c with hac | hac | hac
          · exact (by simp [charListLe, hac])
          · subst hac
            simp [charListLe, lt_irrefl] at h1 h2 ⊢
            exact ih bs cs h1 h2
          · simp [charListLe, hac, asymm hac] at h2
        · simp [charListLe, hab, asymm hab] at h1

instance : IsTotal String strLe :=
  ⟨fun a b => charListLe_total a.data b.data⟩

instance : IsTrans String strLe :=
  ⟨fun a b c => charListLe_trans a.data b.data c.data⟩

/-- The Python sort key `lambda x: (-(x in d_set), x)` used on the
overlap list: True negates to -1, False to 0. -/
def pyKey (dset : List String) (x : String) : Int × String :=
  (if dset.contains x then -1 else 0, x)

/-- Ascending lexicographic comparison of the Python sort keys, i.e.
the order produced by `sorted(overlap, key=lambda x: (-(x in d_set), x))`. -/
def pyKeyLe (dset : List String) (x y : String) : Prop :=
  (pyKey dset x).1 < (pyKey dset y).1 ∨
    ((pyKey dset x).1 = (pyKey dset y).1 ∧ strLe x y)

instance (dset : List String) : DecidableRel (pyKeyLe dset) := fun x y =>
  decidable_of_iff ((pyKey dset x).1 < (pyKey dset y).1 ∨
    ((pyKey dset x).1 = (pyKey dset y).1 ∧ strLe x y)) Iff.rfl

instance (dset : List String) : IsTotal String (pyKeyLe dset) := by
  constructor
  intro x y
  rcases lt_trichotomy (pyKey dset x).1 (pyKey dset y).1 with h | h | h
  · exact Or.inl (Or.inl h)
  · rcases charListLe_total x.data y.data with hxy | hxy
    · exact Or.inl (Or.inr ⟨h, hxy⟩)
    · exact Or.inr (Or.inr ⟨h.symm, hxy⟩)
  · exact Or.inr (Or.inl h)

instance (dset : List String) : IsTrans String (pyKeyLe dset) := by
  constructor
  intro x y z hxy hyz
  rcases hxy with h1 | ⟨h1, h1'⟩
  · rcases hyz with h2 | ⟨h2, _⟩
    · exact Or.inl (h1.trans h2)
    · exact Or.inl (h2 ▸ h1)
  · rcases hyz with h2 | ⟨h2, h2'⟩
    · exact Or.inl (h1 ▸ h2)
    · exact Or.inr ⟨h1.trans h2, charListLe_trans _ _ _ h1' h2'⟩

/-- `keyword_overlap`: filtered query tokens; empty query short-circuits
to ([], 0.0); otherwise the set intersection of the two filtered token
sets, sorted by the Python key and truncated to `top_n`, with
overlap_ratio = len(overlap) / max(1, len(q_set)). -/
def keyword_overlap (query doc_text : String) (top_n : Nat := 10) :
    List String × ℚ :=
  let q_keywords := extract_keywords query
  if q_keywords = [] then ([], 0)
  else
    let q_set := q_keywords.dedup
    let d_set := (extract_keywords doc_text).dedup
    let overlap := q_set.filter (fun t => d_set.contains t)
    let overlap_list := List.insertionSort (pyKeyLe d_set) overlap
    (overlap_list.take top_n,
      (overlap.length : ℚ) / ((max 1 q_set.length : ℕ) : ℚ))

/-- The spec's description of overlap_keywords: the alphabetically
sorted intersection of the filtered query token set and the filtered
document token set. -/
def alphaIntersection (query doc_text : String) : List String :=
  List.insertionSort strLe
    ((extract_keywords query).dedup.filter
      (fun t => ((extract_keywords doc_text).dedup).contains t))

theorem orderedInsert_congr {α : Type} (p : α → Prop) (r r' : α → α → Prop)
    [DecidableRel r] [DecidableRel r']
    (h : ∀ a b, p a → p b → (r a b ↔ r' a b)) (a : α) (l : List α)
    (hp : ∀ x ∈ l, p x) (hpa : p a) :
    l.orderedInsert r a = l.orderedInsert r' a := by
  induction l with
  | nil => rfl
  | cons b t ih =>
    have hpb : p b := hp b (List.mem_cons_self b t)
    have hpt : ∀ x ∈ t, p x := fun x hx => hp x (List.mem_cons_of_mem _ hx)
    simp only [List.orderedInsert]
    by_cases hr : r a b
    · rw [if_pos hr, if_pos ((h a b hpa hpb).mp hr)]
    · rw [if_neg hr, if_neg (fun hr' => hr ((h a b hpa hpb).mpr hr')), ih hpt]

theorem insertionSort_congr {α : Type} (p : α → Prop) (r r' : α → α → Prop)
    [DecidableRel r] [DecidableRel r']
    (h : ∀ a b, p a → p b → (r a b ↔ r' a b)) (l : List α)
    (hp : ∀ x ∈ l, p x) :
    List.insertionSort r l = List.insertionSort r' l := by
  induction l with
  | nil => rfl
  | cons a t ih =>
    have hpt : ∀ x ∈ t, p x := fun x hx => hp x (List.mem_cons_of_mem _ hx)
    simp only [List.insertionSort]
    rw [ih hpt]
    apply orderedInsert_congr p r r' h a _ ?_ (hp a (List.mem_cons_self a t))
    intro x hx
    exact hpt x ((List.mem_insertionSort r').mp hx)

example : simple_tokenize "Hello, world!" = ["hello", "world"] := by decide

example : extract_keywords "the quantum physics of it" = ["quantum", "physics"] := by
  decide

example : (keyword_overlap "quantum physics basics" "The quantum physics lab").1
    = ["physics", "quantum"] := by decide

/-- C7: keyword overlap. An empty filtered query yields ([], 0) with no
division by zero; otherwise overlap_keywords is the alphabetically
sorted intersection of the filtered query and document token sets
truncated to at most 10 entries (the Python key sort reduces to plain
alphabetical order because every overlap element is in the document
set), every returned keyword occurs in both filtered token lists, and
overlap_ratio equals |intersection| / |query keyword set| and always
lies in [0, 1]. -/
theorem keyword_overlap_correct :
    ∀ query doc_text : String,
      (extract_keywords query = [] → keyword_overlap query doc_text = ([], 0)) ∧
      (keyword_overlap query doc_text).1
        = (alphaIntersection query doc_text).take 10 ∧
      (keyword_overlap query doc_text).1.length ≤ 10 ∧
      List.Sorted strLe (keyword_overlap query doc_text).1 ∧
      (∀ x ∈ (keyword_overlap query doc_text).1,
        x ∈ extract_keywords query ∧ x ∈ extract_keywords doc_text) ∧
      0 ≤ (keyword_overlap query doc_text).2 ∧
      (keyword_overlap query doc_text).2 ≤ 1 ∧
      (extract_keywords query ≠ [] →
        (keyword_overlap query doc_text).2
          = (((extract_keywords query).dedup.filter
              (fun t => ((extract_keywords doc_text).dedup).contains t)).length : ℚ)
            / ((extract_keywords query).dedup.length : ℚ)) := by
  intro query doc_text
  by_cases hq : extract_keywords query = []
  · have hko : keyword_overlap query doc_text = ([], 0) := by
      simp only [keyword_overlap]
      rw [if_pos hq]
    have hAI : alphaIntersection query doc_text = [] := by
      unfold alphaIntersection
      rw [hq]
      rfl
    refine ⟨fun _ => hko, ?_, ?_, ?_, ?_, ?_, ?_, fun hne => absurd hq hne⟩
    · rw [hko, hAI]
      rfl
    · rw [hko]
      simp
    · rw [hko]
      exact List.sorted_nil
    · intro x hx
      rw [hko] at hx
      simp at hx
    · rw [hko]
    · rw [hko]
      norm_num
  · have hko : keyword_overlap query doc_text
        = ((List.insertionSort (pyKeyLe ((extract_keywords doc_text).dedup))
              ((extract_keywords query).dedup.filter
                (fun t => ((extract_keywords doc_text).dedup).contains t))).take 10,
            ((((extract_keywords query).dedup.filter
                (fun t => ((extract_keywords doc_text).dedup).contains t)).length : ℚ))
              / (((max 1 (extract_keywords query).dedup.length : ℕ)) : ℚ)) := by
      simp only [keyword_overlap]
      rw [if_neg hq]
    have hsorteq : List.insertionSort (pyKeyLe ((extract_keywords doc_text).dedup))
        ((extract_keywords query).dedup.filter
          (fun t => ((extract_keywords doc_text).dedup).contains t))
        = alphaIntersection query doc_text := by
      unfold alphaIntersection
      apply insertionSort_congr
        (fun x => ((extract_keywords doc_text).dedup).contains x = true)
      · intro a b ha hb
        have ha' : a ∈ extract_keywords doc_text :=
          List.mem_dedup.mp (List.mem_of_elem_eq_true ha)
        have hb' : b ∈ extract_keywords doc_text :=
          List.mem_dedup.mp (List.mem_of_elem_eq_true hb)
        simp [pyKeyLe, pyKey, ha', hb']
      · intro x hx
        exact List.of_mem_filter hx
    have hlen1 : 1 ≤ (extract_keywords query).dedup.length := by
      apply List.length_pos.mpr
      intro hnil
      exact hq ((List.dedup_eq_nil _).mp hnil)
    have hmax : max 1 (extract_keywords query).dedup.length
        = (extract_keywords query).dedup.length := max_eq_right hlen1
    refine ⟨fun h => absurd h hq, ?_, ?_, ?_, ?_, ?_, ?_, fun _ => ?_⟩
    · rw [hko, ← hsorteq]
    · rw [hko]
      exact List.length_take_le _ _
    · rw [hko]
      show List.Sorted strLe (List.take 10 _)
      rw [hsorteq]
      exact List.Pairwise.sublist (List.take_sublist _ _)
        (List.sorted_insertionSort strLe _)
    · intro x hx
      rw [hko] at hx
      have hx' := (List.mem_insertionSort _).mp (List.mem_of_mem_take hx)
      have hxq : x ∈ (extract_keywords query).dedup :=
        List.mem_of_mem_filter hx'
      have hxd : ((extract_keywords doc_text).dedup).contains x = true :=
        List.of_mem_filter hx'
      exact ⟨List.mem_dedup.mp hxq,
        List.mem_dedup.mp (List.mem_of_elem_eq_true hxd)⟩
    · rw [hko]
      exact div_nonneg (Nat.cast_nonneg _) (Nat.cast_nonneg _)
    · rw [hko]
      apply div_le_one_of_le₀
      · apply Nat.cast_le.mpr
        exact le_trans (List.length_filter_le _ _) (le_max_right 1 _)
      · exact Nat.cast_nonneg _
    · rw [hko]
      show _ = _
      rw [hmax]

/-- Witness for C7 at the concrete pair from the spec's end-to-end
scenario: query "quantum physics basics" against a document containing
"quantum" and "physics". -/
theorem keyword_overlap_correct_witness :
    (keyword_overlap "quantum physics basics" "The quantum physics lab").1
        = (alphaIntersection "quantum physics basics"
            "The quantum physics lab").take 10 ∧
      (keyword_overlap "quantum physics basics" "The quantum physics lab").2
        = (((extract_keywords "quantum physics basics").dedup.filter
            (fun t => ((extract_keywords "The quantum physics lab").dedup).contains t)).length : ℚ)
          / ((extract_keywords "quantum physics basics").dedup.length : ℚ) :=
  have h := keyword_overlap_correct "quantum physics basics"
    "The quantum physics lab"
  ⟨h.2.1, h.2.2.2.2.2.2.2 (by decide)⟩

/-- The numeric core of `doc_length_norm`:
1 / (1 + log(1 + n)) where n = max(1, token count), exactly as the code
computes it (`n = max(1, len(tokens))`). The float arithmetic is
idealised over the reals. -/
noncomputable def doc_length_norm_count (n : Nat) : ℝ :=
  1 / (1 + Real.log (1 + ((max 1 n : ℕ) : ℝ)))

/-- `doc_length_norm`: applied to the unfiltered token count of the
document text. -/
noncomputable def doc_length_norm (doc_text : String) : ℝ :=
  doc_length_norm_count (simple_tokenize doc_text).length

/-- C2 counterexample: the empty document has 0 tokens and "hello" has
1 token, yet doc_length_norm gives both the same value (the count is
clamped to a minimum of 1 before the logarithm), so the function is not
strictly decreasing in token count; moreover its value at 0 tokens is
1/(1+ln 2), not 1.0, so it never equals 1.0. -/
theorem doc_length_norm_clamp_refutes :
    (simple_tokenize "").length = 0 ∧
      (simple_tokenize "hello").length = 1 ∧
      doc_length_norm "" = doc_length_norm "hello" ∧
      doc_length_norm "" ≠ 1 := by
  refine ⟨rfl, rfl, rfl, ?_⟩
  unfold doc_length_norm
  have h0 : (simple_tokenize "").length = 0 := rfl
  rw [h0]
  unfold doc_length_norm_count
  have hmax : ((max 1 0 : ℕ) : ℝ) = 1 := by norm_num
  rw [hmax]
  have hlog : 0 < Real.log (1 + 1) := Real.log_pos (by norm_num)
  have hlt : 1 / (1 + Real.log (1 + 1)) < 1 := by
    rw [div_lt_one (by linarith)]
    linarith
  exact ne_of_lt hlt

/-- C2 amended: doc_length_norm always lies in the open interval (0, 1)
(in particular it never equals 1.0); as a function of the token count it
is strictly decreasing for counts at least 1, and the clamp makes the
value at count 0 equal to the value at count 1. -/
theorem doc_length_norm_bounds_mono :
    (∀ t : String, 0 < doc_length_norm t ∧ doc_length_norm t < 1) ∧
    (∀ n m : Nat, 1 ≤ n → n < m →
      doc_length_norm_count m < doc_length_norm_count n) ∧
    doc_length_norm_count 0 = doc_length_norm_count 1 := by
  have key : ∀ n : Nat,
      0 < doc_length_norm_count n ∧ doc_length_norm_count n < 1 := by
    intro n
    unfold doc_length_norm_count
    have hx : (1 : ℝ) ≤ ((max 1 n : ℕ) : ℝ) := by
      exact_mod_cast le_max_left 1 n
    have hlogpos : 0 < Real.log (1 + ((max 1 n : ℕ) : ℝ)) :=
      Real.log_pos (by linarith)
    constructor
    · apply div_pos one_pos
      linarith
    · rw [div_lt_one (by linarith)]
      linarith
  refine ⟨fun t => key _, ?_, rfl⟩
  intro n m hn hm
  unfold doc_length_norm_count
  have hmn : max 1 n = n := max_eq_right hn
  have hmm : max 1 m = m := max_eq_right (le_trans hn (le_of_lt hm))
  rw [hmn, hmm]
  have hcast : (n : ℝ) < (m : ℝ) := by exact_mod_cast hm
  have hlt : Real.log (1 + (n : ℝ)) < Real.log (1 + (m : ℝ)) := by
    apply Real.log_lt_log
    · positivity
    · linarith
  have hlognn : 0 ≤ Real.log (1 + (n : ℝ)) := by
    apply Real.log_nonneg
    have hnn : (0 : ℝ) ≤ (n : ℝ) := Nat.cast_nonneg n
    linarith
  exact one_div_lt_one_div_of_lt (by linarith) (by linarith)

/-- Witness for C2 amended at a concrete document and concrete counts. -/
theorem doc_length_norm_bounds_mono_witness :
    (0 < doc_length_norm "hello world" ∧ doc_length_norm "hello world" < 1) ∧
      doc_length_norm_count 2 < doc_length_norm_count 1 :=
  ⟨doc_length_norm_bounds_mono.1 "hello world",
    doc_length_norm_bounds_mono.2.1 1 2 (by decide) (by decide)⟩

/-- Sum of squares of a vector's entries. -/
def sumSq (v : List ℝ) : ℝ := (v.map (fun x => x * x)).sum

/-- The Euclidean norm computed by np.linalg.norm on a row. -/
noncomputable def l2norm (v : List ℝ) : ℝ := Real.sqrt (sumSq v)

/-- The per-row operation of the Embedder method `_normalize` (leading
underscore in Python): compute the row norm, replace a zero norm by 1.0
(`norms[norms == 0.0] = 1.0`), then divide every entry by it. -/
noncomputable def normalizeRow (v : List ℝ) : List ℝ :=
  v.map (fun x => x / (if l2norm v = 0 then 1 else l2norm v))

/-- `Embedder._normalize` applied to the whole matrix, row by row. -/
noncomputable def normalizeMatrix (vs : List (List ℝ)) : List (List ℝ) :=
  vs.map normalizeRow

/-- `Embedder.embed_texts`: encode the batch, then normalize. -/
noncomputable def embed_texts (encode : String → List ℝ)
    (texts : List String) : List (List ℝ) :=
  normalizeMatrix (texts.map encode)

/-- `Embedder.embed_query`: encode one query; if the raw vector's norm
is 0 return it unchanged, otherwise divide by the norm. -/
noncomputable def embed_query (encode : String → List ℝ) (q : String) :
    List ℝ :=
  if l2norm (encode q) = 0 then encode q
  else (encode q).map (fun x => x / l2norm (encode q))

theorem sumSq_nonneg (v : List ℝ) : 0 ≤ sumSq v := by
  apply List.sum_nonneg
  intro x hx
  obtain ⟨a, _, rfl⟩ := List.mem_map.mp hx
  exact mul_self_nonneg a

theorem l2norm_eq_zero_iff (v : List ℝ) : l2norm v = 0 ↔ sumSq v = 0 := by
  unfold l2norm
  exact Real.sqrt_eq_zero (sumSq_nonneg v)

theorem sumSq_eq_zero_iff (v : List ℝ) : sumSq v = 0 ↔ ∀ x ∈ v, x = 0 := by
  induction v with
  | nil => simp [sumSq]
  | cons a t ih =>
    have hs : sumSq (a :: t) = a * a + sumSq t := by simp [sumSq]
    rw [hs]
    rw [add_eq_zero_iff_of_nonneg (mul_self_nonneg a) (sumSq_nonneg t)]
    simp only [mul_self_eq_zero, List.mem_cons]
    constructor
    · rintro ⟨ha, ht⟩ x (rfl | hx)
      · exact ha
      · exact ih.mp ht x hx
    · intro h
      exact ⟨h a (Or.inl rfl), ih.mpr (fun x hx => h x (Or.inr hx))⟩

/-- C10: embedding normalization is total and never divides by zero.
The divisor used by the normalize method is never 0 (a zero row norm is
replaced by 1.0); a raw query embedding of zero norm is the zero vector
and embed_query returns it unchanged; a zero-norm row passes through
the normalize method unchanged; and both embed_texts and embed_query
are defined on all inputs (embed_texts preserves the batch shape). -/
theorem embedder_normalize_total :
    (∀ v : List ℝ, (if l2norm v = 0 then (1 : ℝ) else l2norm v) ≠ 0) ∧
    (∀ (encode : String → List ℝ) (q : String), l2norm (encode q) = 0 →
      embed_query encode q = encode q ∧ ∀ x ∈ encode q, x = 0) ∧
    (∀ v : List ℝ, l2norm v = 0 → normalizeRow v = v) ∧
    (∀ v : List ℝ, (normalizeRow v).length = v.length) ∧
    (∀ (encode : String → List ℝ) (texts : List String),
      (embed_texts encode texts).length = texts.length) := by
  refine ⟨?_, ?_, ?_, ?_, ?_⟩
  · intro v
    by_cases h : l2norm v = 0 <;> simp [h]
  · intro encode q h
    constructor
    · unfold embed_query
      rw [if_pos h]
    · intro x hx
      exact (sumSq_eq_zero_iff _).mp ((l2norm_eq_zero_iff _).mp h) x hx
  · intro v h
    unfold normalizeRow
    rw [if_pos h]
    simp
  · intro v
    unfold normalizeRow
    exact List.length_map _ _
  · intro encode texts
    unfold embed_texts normalizeMatrix
    simp

/-- Witness for C10 at the zero vector of dimension 2. -/
theorem embedder_normalize_total_witness :
    embed_query (fun _ => [(0 : ℝ), 0]) "q" = [(0 : ℝ), 0] ∧
      normalizeRow [(0 : ℝ), 0] = [(0 : ℝ), 0] :=
  have hz : l2norm [(0 : ℝ), 0] = 0 := by
    simp [l2norm, sumSq]
  ⟨(embedder_normalize_total.2.1 (fun _ => [(0 : ℝ), 0]) "q" hz).1,
    embedder_normalize_total.2.2.1 [(0 : ℝ), 0] hz⟩

/-- The query-time state of `SearchEngine`: metadata (loaded in the
constructor), and the FAISS index and id-map, both None until
`load_index` runs. The id-map is keyed by the position rendered as a
string, as JSON round-tripping makes it. -/
structure EngineState where
  metadata : List DocMeta
  index : Option (List (List ℚ))
  id_map : Option (List (String × String))

/-- The failures `SearchEngine.search` can raise: the RuntimeError for
an unloaded index (the spec's IndexNotReady), and a KeyError from a
dictionary lookup. -/
inductive SearchError where
  | indexNotReady : SearchError
  | keyError : String → SearchError
deriving DecidableEq, Repr

/-- Python dict lookup in the loaded id-map. -/
def lookupStr (m : List (String × String)) (k : String) : Option String :=
  (m.find? (fun p => p.1 == k)).map (·.2)

/-- Python dict lookup in the metadata map (keyed by doc_id). -/
def findMeta (md : List DocMeta) (id : String) : Option DocMeta :=
  md.find? (fun m => m.doc_id == id)

/-- Inner product of two vectors. -/
def dot (u v : List ℚ) : ℚ := (List.zipWith (fun a b => a * b) u v).sum

/-- Non-increasing order on (score, position) pairs, the order in which
FAISS returns its hits. -/
def pairGe (a b : ℚ × Int) : Prop := b.1 ≤ a.1

instance : DecidableRel pairGe :=
  fun a b => decidable_of_iff (b.1 ≤ a.1) Iff.rfl

instance : IsTotal (ℚ × Int) pairGe := ⟨fun a b => le_total b.1 a.1⟩

instance : IsTrans (ℚ × Int) pairGe := ⟨fun _ _ _ hab hbc => le_trans hbc hab⟩

/-- `index.search(qvec, k)` of the FAISS flat inner-product index, by
its documented contract: score every stored vector by inner product
with the query, return the k best as (score, position) in
non-increasing score order, and when fewer than k vectors are stored
pad the result up to length k with label -1 (the padded score slot is
irrelevant to the engine, which fails on the label first). -/
def faissSearch (vecs : List (List ℚ)) (q : List ℚ) (k : Nat) :
    List (ℚ × Int) :=
  ((List.insertionSort pairGe
      (vecs.enum.map (fun p => (dot q p.2, (p.1 : Int)))))
    ++ List.replicate (k - vecs.length) ((0 : ℚ), (-1 : Int))).take k

/-- The result loop of `SearchEngine.search`: for each returned hit,
`doc_id = self.id_map[str(idx)]` (KeyError when absent) and
`meta = self.metadata[doc_id]` (KeyError when absent), collecting
`(doc_id, float(score), meta["path"])` rows. -/
def resolveHits (md : List DocMeta) (idmap : List (String × String)) :
    List (ℚ × Int) → Except SearchError (List SearchCandidate)
  | [] => .ok []
  | (score, idx) :: rest =>
    match lookupStr idmap (toString idx) with
    | none => .error (.keyError (toString idx))
    | some docId =>
      match findMeta md docId with
      | none => .error (.keyError docId)
      | some meta =>
        match resolveHits md idmap rest with
        | .error e => .error e
        | .ok cs => .ok (⟨docId, score, meta.path⟩ :: cs)

/-- `SearchEngine.search`: raise if the index or id-map is not loaded,
otherwise embed the query, run the FAISS search and resolve the hits. -/
def search (embedQ : String → List ℚ) (st : EngineState) (q : String)
    (top_k : Nat) : Except SearchError (List SearchCandidate) :=
  match st.index, st.id_map with
  | some vecs, some idmap =>
    resolveHits st.metadata idmap (faissSearch vecs (embedQ q) top_k)
  | _, _ => .error .indexNotReady

theorem resolveHits_ok (md : List DocMeta) (idmap : List (String × String))
    (hits : List (ℚ × Int))
    (h : ∀ p ∈ hits, ∃ d m, lookupStr idmap (toString p.2) = some d ∧
      findMeta md d = some m) :
    ∃ cs, resolveHits md idmap hits = .ok cs ∧ cs.length = hits.length ∧
      cs.map (fun c => c.score) = hits.map (fun p => p.1) := by
  induction hits with
  | nil => exact ⟨[], rfl, rfl, rfl⟩
  | cons p rest ih =>
    obtain ⟨s, i⟩ := p
    obtain ⟨d, m, hd, hm⟩ := h (s, i) (List.mem_cons_self _ _)
    obtain ⟨cs, hcs, hlen, hmap⟩ :=
      ih (fun p' hp' => h p' (List.mem_cons_of_mem _ hp'))
    refine ⟨⟨d, s, m.path⟩ :: cs, ?_, by simp [hlen], by simp [hmap]⟩
    show resolveHits md idmap ((s, i) :: rest) = _
    simp only [resolveHits, hd, hm, hcs]

/-- C3 counterexample: a loaded, fully consistent one-document index
queried with top_k = 2. FAISS pads the missing hit with label -1 and
the id-map lookup of "-1" raises a KeyError, so search fails instead of
returning normally with at most N results. -/
theorem search_topk_overflow_keyerror :
    search (fun _ => [(1 : ℚ)])
        ⟨[⟨"d1", "p1", "h1", 1⟩], some [[(1 : ℚ)]], some [("0", "d1")]⟩
        "anything" 2
      = .error (.keyError "-1") := by
  rfl

/-- C3 amended: if the index or id-map has not been loaded, search
fails with the IndexNotReady error; and for a loaded index over N
vectors whose id-map resolves every position below N to a metadata
entry, every query and every top_k with 1 <= top_k <= N yields an
ordered result: search returns normally with exactly top_k candidates
whose scores are non-increasing from first to last. (For top_k > N the
engine instead fails on the id-map lookup of FAISS's -1 padding; see
the counterexample.) -/
theorem search_contract :
    (∀ (embedQ : String → List ℚ) (st : EngineState) (q : String) (k : Nat),
      st.index = none ∨ st.id_map = none →
      search embedQ st q k = .error .indexNotReady) ∧
    (∀ (embedQ : String → List ℚ) (md : List DocMeta)
      (vecs : List (List ℚ)) (idmap : List (String × String))
      (q : String) (k : Nat),
      1 ≤ k → k ≤ vecs.length →
      (∀ i : Nat, i < vecs.length → ∃ d m,
        lookupStr idmap (toString (i : Int)) = some d ∧
        findMeta md d = some m) →
      ∃ res, search embedQ ⟨md, some vecs, some idmap⟩ q k = .ok res ∧
        res.length = k ∧ res.Pairwise scoreGe) := by
  constructor
  · intro embedQ st q k h
    obtain ⟨md, idx, idm⟩ := st
    cases idx with
    | none => cases idm <;> rfl
    | some vecs =>
      cases idm with
      | none => rfl
      | some idmap =>
        rcases h with h | h <;> simp at h
  · intro embedQ md vecs idmap q k hk1 hkN hcons
    have hfaiss : faissSearch vecs (embedQ q) k
        = (List.insertionSort pairGe
            (vecs.enum.map (fun p => (dot (embedQ q) p.2, (p.1 : Int))))).take k := by
      unfold faissSearch
      rw [Nat.sub_eq_zero_of_le hkN, List.replicate_zero, List.append_nil]
    have hmem : ∀ p ∈ List.insertionSort pairGe
        (vecs.enum.map (fun p => (dot (embedQ q) p.2, (p.1 : Int)))),
        ∃ j : Nat, j < vecs.length ∧ p.2 = (j : Int) := by
      intro p hp
      have hp' := (List.mem_insertionSort pairGe).mp hp
      obtain ⟨⟨j, v⟩, hjv, hpe⟩ := List.mem_map.mp hp'
      refine ⟨j, (List.mem_enum hjv).1, ?_⟩
      rw [← hpe]
    have hhyp : ∀ p ∈ (List.insertionSort pairGe
        (vecs.enum.map (fun p => (dot (embedQ q) p.2, (p.1 : Int))))).take k,
        ∃ d m, lookupStr idmap (toString p.2) = some d ∧
          findMeta md d = some m := by
      intro p hp
      obtain ⟨j, hj, hpj⟩ := hmem p (List.mem_of_mem_take hp)
      obtain ⟨d, m, hd, hm⟩ := hcons j hj
      rw [hpj]
      exact ⟨d, m, hd, hm⟩
    obtain ⟨cs, hcs, hlen, hmap⟩ := resolveHits_ok md idmap _ hhyp
    refine ⟨cs, ?_, ?_, ?_⟩
    · show resolveHits md idmap (faissSearch vecs (embedQ q) k) = .ok cs
      rw [hfaiss]
      exact hcs
    · rw [hlen, List.length_take, List.length_insertionSort, List.length_map,
        List.enum_length]
      exact min_eq_left hkN
    · have hpw : ((List.insertionSort pairGe
          (vecs.enum.map (fun p => (dot (embedQ q) p.2, (p.1 : Int))))).take k).Pairwise
            pairGe :=
        List.Pairwise.sublist (List.take_sublist _ _)
          (List.sorted_insertionSort pairGe _)
      have hmapped : (cs.map (fun c => c.score)).Pairwise
          (fun a b : ℚ => b ≤ a) := by
        rw [hmap]
        exact (List.pairwise_map).mpr hpw
      exact (List.pairwise_map (f := fun c : SearchCandidate => c.score)).mp hmapped

/-- Witness for C3 amended: an unloaded engine, and a loaded consistent
one-document engine queried with top_k = 1 (search succeeds). -/
theorem search_contract_witness :
    search (fun _ => [(1 : ℚ)]) ⟨[], none, none⟩ "q" 3
        = .error .indexNotReady ∧
      ((search (fun _ => [(1 : ℚ)])
          ⟨[⟨"d1", "p1", "h1", 1⟩], some [[(1 : ℚ)]], some [("0", "d1")]⟩
          "q" 1).toOption).isSome = true := by
  constructor
  · exact search_contract.1 (fun _ => [(1 : ℚ)]) ⟨[], none, none⟩ "q" 3
      (Or.inl rfl)
  · obtain ⟨res, h1, _, _⟩ := search_contract.2 (fun _ => [(1 : ℚ)])
      [⟨"d1", "p1", "h1", 1⟩] [[(1 : ℚ)]] [("0", "d1")] "q" 1
      (by decide) (by decide)
      (fun i hi => by
        have h0 : i = 0 := Nat.lt_one_iff.mp hi
        subst h0
        exact ⟨"d1", ⟨"d1", "p1", "h1", 1⟩, by decide, by decide⟩)
    rw [h1]
    rfl
